import Mathlib

/-!
Verification of the content-processing core of the blog-to-RAG-index builder
(`build_rag_index.py`): the content cleaner `BlogCrawler._clean_content`, the
chunker `ContentChunker.chunk_content`, the key-term extractor
`ContentChunker._extract_key_terms`, and the index validator
`RAGIndexBuilder.validate_index`.

Python strings are embedded as `List Char`.  Python's `str.split`,
`str.strip`, `' '.join`, the two `re.sub` normalisation passes and the
word-boundary term matching are modelled by structurally recursive
functions so that all of them evaluate by kernel reduction.
-/

set_option linter.unusedVariables false

/-- A Python string, embedded as its list of characters. -/
abbrev Str := List Char

/-- Convert a Lean string literal to the embedded representation. -/
def pyStr (s : String) : Str := s.data

/-- The characters Python treats as whitespace in `str.split()` / `str.strip()`
and that `\s` matches in the cleaning regexes (ASCII range). -/
def isPySpace (c : Char) : Bool :=
  c = ' ' || c = '\t' || c = '\n' || c = '\r' || c = '\x0b' || c = '\x0c'

/-- Prepend a character to the first piece of a split result. -/
def consHead (c : Char) : List Str → List Str
  | [] => [[c]]
  | h :: t => (c :: h) :: t

/-- Split at every whitespace character, keeping empty pieces
(the pieces of `s.split()` before empty pieces are discarded). -/
def splitWs : Str → List Str
  | [] => [[]]
  | c :: rest => if isPySpace c then [] :: splitWs rest else consHead c (splitWs rest)

/-- Python `s.split()`: split on whitespace runs, discarding empty pieces. -/
def pyWords (s : Str) : List Str := (splitWs s).filter (fun w => !w.isEmpty)

/-- `len(s.split())`, the whitespace-separated word count used throughout
the chunker and validator. -/
def wc (s : Str) : Nat := (pyWords s).length

/-- Python `sep.join(pieces)`. -/
def joinSep (sep : Str) : List Str → Str
  | [] => []
  | [s] => s
  | s :: rest => s ++ sep ++ joinSep sep rest

/-- Python `' '.join(pieces)` as used in `chunk_content`. -/
def spaceJoin (pieces : List Str) : Str := joinSep [' '] pieces

/-- Python `'\n'.join(lines)` as used in `_clean_content`. -/
def nlJoin (lines : List Str) : Str := joinSep ['\n'] lines

/-- Python `content.split('\n\n')`: split on each non-overlapping
occurrence of two consecutive newlines, scanning left to right. -/
def splitNN : Str → List Str
  | [] => [[]]
  | '\n' :: '\n' :: rest => [] :: splitNN rest
  | c :: rest => consHead c (splitNN rest)

/-- Python `content.split('\n')`. -/
def splitNl : Str → List Str
  | [] => [[]]
  | '\n' :: rest => [] :: splitNl rest
  | c :: rest => consHead c (splitNl rest)

/-- Python `s.strip()` restricted to removing trailing whitespace. -/
def rstripWs : Str → Str
  | [] => []
  | c :: rest =>
    match rstripWs rest with
    | [] => if isPySpace c then [] else [c]
    | r => c :: r

/-- Python `s.strip()`: drop leading and trailing whitespace. -/
def pyStrip (s : Str) : Str := rstripWs (s.dropWhile isPySpace)

/-! ## The chunker (`ContentChunker.chunk_content`) -/

/-- `paragraphs = [p.strip() for p in content.split('\n\n') if p.strip()]` -/
def paragraphsOf (content : Str) : List Str :=
  ((splitNN content).map pyStrip).filter (fun p => !p.isEmpty)

/-- Python `lst[-1:]`: the slice holding the last element (empty for `[]`);
`current_chunk[-1:] if current_chunk else []` in the overlap reset. -/
def lastSlice (l : List Str) : List Str := l.drop (l.length - 1)

/-- One chunk dict produced by `chunk_content`:
`{'text': ..., 'section_number': ..., 'word_count': ...}`. -/
structure Chunk where
  text : Str
  section_number : Nat
  word_count : Nat
deriving DecidableEq

/-- The paragraph loop of `chunk_content`.  State: `buf` is `current_chunk`,
`cwc` is `current_word_count`, `num` is `chunk_number`.  After the loop the
final buffer is emitted only when it reaches `min_chunk_size`. -/
def chunkLoop (csz msz : Nat) : List Str → List Str → Nat → Nat → List Chunk
  | [], buf, cwc, num =>
    if buf ≠ [] ∧ msz ≤ cwc then [⟨spaceJoin buf, num, cwc⟩] else []
  | para :: rest, buf, cwc, num =>
    let pwc := wc para
    if csz < cwc + pwc ∧ buf ≠ [] then
      ⟨spaceJoin buf, num, cwc⟩ ::
        chunkLoop csz msz rest (lastSlice buf ++ [para])
          (wc (spaceJoin (lastSlice buf)) + pwc) (num + 1)
    else
      chunkLoop csz msz rest (buf ++ [para]) (cwc + pwc) num

/-- `ContentChunker.chunk_content(content)` with configuration values
`chunk_size = csz` and `min_chunk_size = msz`. -/
def chunk_content (csz msz : Nat) (content : Str) : List Chunk :=
  chunkLoop csz msz (paragraphsOf content) [] 0 1

/-- The same loop, also recording the paragraph buffer each emitted chunk
was built from. -/
def chunkLoopB (csz msz : Nat) : List Str → List Str → Nat → Nat → List (List Str × Chunk)
  | [], buf, cwc, num =>
    if buf ≠ [] ∧ msz ≤ cwc then [(buf, ⟨spaceJoin buf, num, cwc⟩)] else []
  | para :: rest, buf, cwc, num =>
    let pwc := wc para
    if csz < cwc + pwc ∧ buf ≠ [] then
      (buf, ⟨spaceJoin buf, num, cwc⟩) ::
        chunkLoopB csz msz rest (lastSlice buf ++ [para])
          (wc (spaceJoin (lastSlice buf)) + pwc) (num + 1)
    else
      chunkLoopB csz msz rest (buf ++ [para]) (cwc + pwc) num

/-- The paragraph buffers underlying successive chunks of `chunk_content`. -/
def chunkBuffers (csz msz : Nat) (content : Str) : List (List Str) :=
  (chunkLoopB csz msz (paragraphsOf content) [] 0 1).map Prod.fst

/-- The `(current_chunk, current_word_count)` state left over after the
paragraph loop of `chunk_content`; its word count is what a trailing
discard drops. -/
def loopFinal (csz : Nat) : List Str → List Str → Nat → List Str × Nat
  | [], buf, cwc => (buf, cwc)
  | para :: rest, buf, cwc =>
    let pwc := wc para
    if csz < cwc + pwc ∧ buf ≠ [] then
      loopFinal csz rest (lastSlice buf ++ [para]) (wc (spaceJoin (lastSlice buf)) + pwc)
    else
      loopFinal csz rest (buf ++ [para]) (cwc + pwc)

/-- Word count of the trailing buffer that `chunk_content` discards
(zero when the trailing buffer is emitted as a final chunk). -/
def discardedWc (csz msz : Nat) (content : Str) : Nat :=
  let fin := loopFinal csz (paragraphsOf content) [] 0
  if fin.1 ≠ [] ∧ msz ≤ fin.2 then 0 else fin.2

/-! ## Word-count lemmas -/

theorem splitWs_ne_nil (s : Str) : splitWs s ≠ [] := by
  cases s with
  | nil => simp [splitWs]
  | cons c rest =>
    simp only [splitWs]
    split
    · simp
    · cases h : splitWs rest with
      | nil => simp [consHead]
      | cons a t => simp [consHead]

theorem consHead_append (c : Char) (L M : List Str) (h : L ≠ []) :
    consHead c (L ++ M) = consHead c L ++ M := by
  cases L with
  | nil => exact absurd rfl h
  | cons a t => simp [consHead]

theorem pyWords_nil : pyWords [] = [] := rfl

theorem pyWords_cons_ws (c : Char) (s : Str) (h : isPySpace c = true) :
    pyWords (c :: s) = pyWords s := by
  simp [pyWords, splitWs, h]

theorem splitWs_append_ws (c : Char) (h : isPySpace c = true) :
    ∀ x y : Str, splitWs (x ++ c :: y) = splitWs x ++ splitWs y := by
  intro x
  induction x with
  | nil => intro y; simp [splitWs, h]
  | cons a x ih =>
    intro y
    simp only [List.cons_append, splitWs]
    split
    · simp [ih]
    · simp only [List.append_eq]
      rw [ih, consHead_append a _ _ (splitWs_ne_nil x)]

theorem pyWords_append_ws (c : Char) (h : isPySpace c = true) (x y : Str) :
    pyWords (x ++ c :: y) = pyWords x ++ pyWords y := by
  simp [pyWords, splitWs_append_ws c h, List.filter_append]

/-- All characters of a string are whitespace. -/
def allWs (s : Str) : Prop := ∀ c ∈ s, isPySpace c = true

theorem splitWs_allWs (t : Str) (h : allWs t) :
    splitWs t = List.replicate (t.length + 1) [] := by
  induction t with
  | nil => rfl
  | cons c rest ih =>
    have hc : isPySpace c = true := h c (by simp)
    have : allWs rest := fun d hd => h d (by simp [hd])
    simp [splitWs, hc, ih this, List.replicate_succ]

theorem filter_replicate_nil (n : Nat) :
    (List.replicate n ([] : Str)).filter (fun w => !w.isEmpty) = [] := by
  induction n with
  | zero => rfl
  | succ n ih => simp [List.replicate_succ, ih]

theorem pyWords_allWs (t : Str) (h : allWs t) : pyWords t = [] := by
  simp [pyWords, splitWs_allWs t h, filter_replicate_nil]

theorem splitWs_append_allWs (u t : Str) (h : allWs t) :
    splitWs (u ++ t) = splitWs u ++ List.replicate t.length [] := by
  induction u with
  | nil => simp [splitWs, splitWs_allWs t h, List.replicate_succ]
  | cons a u ih =>
    simp only [List.cons_append, splitWs]
    split
    · simp [ih]
    · simp only [List.append_eq]
      rw [ih, consHead_append a _ _ (splitWs_ne_nil u)]

theorem pyWords_append_allWs (u t : Str) (h : allWs t) :
    pyWords (u ++ t) = pyWords u := by
  simp [pyWords, splitWs_append_allWs u t h, List.filter_append, filter_replicate_nil]

theorem joinSep_cons (sep s : Str) (rest : List Str) (h : rest ≠ []) :
    joinSep sep (s :: rest) = s ++ sep ++ joinSep sep rest := by
  cases rest with
  | nil => exact absurd rfl h
  | cons a t => rfl

theorem joinSep_snoc (sep : Str) (l : List Str) (p : Str) (h : l ≠ []) :
    joinSep sep (l ++ [p]) = joinSep sep l ++ sep ++ p := by
  induction l with
  | nil => exact absurd rfl h
  | cons a l ih =>
    cases l with
    | nil => simp [joinSep]
    | cons b t =>
      rw [List.cons_append, joinSep_cons sep a _ (by simp),
        joinSep_cons sep a _ (by simp), ih (by simp)]
      simp [List.append_assoc]

theorem wc_spaceJoin_snoc (l : List Str) (p : Str) :
    wc (spaceJoin (l ++ [p])) = wc (spaceJoin l) + wc p := by
  cases l with
  | nil => simp [spaceJoin, joinSep, wc, pyWords_nil]
  | cons a t =>
    rw [spaceJoin, joinSep_snoc [' '] (a :: t) p (by simp)]
    have : joinSep [' '] (a :: t) ++ [' '] ++ p = joinSep [' '] (a :: t) ++ ' ' :: p := by
      simp
    rw [this, wc, pyWords_append_ws ' ' (by decide)]
    simp [wc, spaceJoin]

/-! ## Chunker: word_count invariant (C4) -/

theorem chunkLoop_wc (csz msz : Nat) :
    ∀ paras buf cwc num, cwc = wc (spaceJoin buf) →
      ∀ c ∈ chunkLoop csz msz paras buf cwc num, c.word_count = wc c.text := by
  intro paras
  induction paras with
  | nil =>
    intro buf cwc num hinv c hc
    rw [chunkLoop] at hc
    split at hc
    · simp at hc
      subst hc
      simpa using hinv
    · simp at hc
  | cons para rest ih =>
    intro buf cwc num hinv c hc
    rw [chunkLoop] at hc
    split at hc
    · rcases List.mem_cons.mp hc with h | h
      · subst h
        simpa using hinv
      · exact ih _ _ _ (by rw [wc_spaceJoin_snoc]) c h
    · exact ih _ _ _ (by rw [wc_spaceJoin_snoc, ← hinv]) c hc

/-- C4: every chunk returned by the chunker has `word_count` equal to the
whitespace-split token count of its `text`, for every input and configuration. -/
theorem chunk_word_count_matches_text (csz msz : Nat) (content : Str) :
    ∀ c ∈ chunk_content csz msz content, c.word_count = wc c.text := by
  intro c hc
  exact chunkLoop_wc csz msz (paragraphsOf content) [] 0 1 rfl c hc

/-- Concrete instantiation of `chunk_word_count_matches_text`: a 50-word
single paragraph yields one chunk whose stored count matches its text. -/
def c4text : Str := spaceJoin (List.replicate 50 (pyStr "w"))

set_option maxRecDepth 40000 in
theorem chunk_word_count_matches_text_witness :
    (Chunk.mk c4text 1 50).word_count = wc (Chunk.mk c4text 1 50).text :=
  chunk_word_count_matches_text 150 50 c4text (Chunk.mk c4text 1 50) (by decide)

/-! ## Chunker: section numbering (C3) -/

theorem chunkLoop_sections (csz msz : Nat) :
    ∀ paras buf cwc num,
      (chunkLoop csz msz paras buf cwc num).map Chunk.section_number =
        List.range' num (chunkLoop csz msz paras buf cwc num).length := by
  intro paras
  induction paras with
  | nil =>
    intro buf cwc num
    rw [chunkLoop]
    split
    · simp [List.range']
    · simp [List.range']
  | cons para rest ih =>
    intro buf cwc num
    rw [chunkLoop]
    split
    · simp [List.range', ih]
    · exact ih _ _ _

/-- C3: the section numbers of the chunks returned for any input are exactly
`1, 2, ..., N` in order, where `N` is the number of chunks returned. -/
theorem chunk_section_numbers_consecutive (csz msz : Nat) (content : Str) :
    (chunk_content csz msz content).map Chunk.section_number =
      List.range' 1 (chunk_content csz msz content).length :=
  chunkLoop_sections csz msz (paragraphsOf content) [] 0 1

theorem chunkLoop_cons_emit (csz msz : Nat) (para : Str) (rest buf : List Str)
    (cwc num : Nat) (h : csz < cwc + wc para ∧ buf ≠ []) :
    chunkLoop csz msz (para :: rest) buf cwc num =
      ⟨spaceJoin buf, num, cwc⟩ ::
        chunkLoop csz msz rest (lastSlice buf ++ [para])
          (wc (spaceJoin (lastSlice buf)) + wc para) (num + 1) := by
  rw [chunkLoop]
  simp only [if_pos h]

theorem chunkLoop_cons_skip (csz msz : Nat) (para : Str) (rest buf : List Str)
    (cwc num : Nat) (h : ¬(csz < cwc + wc para ∧ buf ≠ [])) :
    chunkLoop csz msz (para :: rest) buf cwc num =
      chunkLoop csz msz rest (buf ++ [para]) (cwc + wc para) num := by
  rw [chunkLoop]
  simp only [if_neg h]

theorem chunkLoop_nil_emit (csz msz : Nat) (buf : List Str) (cwc num : Nat)
    (h : buf ≠ [] ∧ msz ≤ cwc) :
    chunkLoop csz msz [] buf cwc num = [⟨spaceJoin buf, num, cwc⟩] := by
  rw [chunkLoop]
  simp only [if_pos h]

theorem chunkLoop_nil_skip (csz msz : Nat) (buf : List Str) (cwc num : Nat)
    (h : ¬(buf ≠ [] ∧ msz ≤ cwc)) :
    chunkLoop csz msz [] buf cwc num = [] := by
  rw [chunkLoop]
  simp only [if_neg h]

/-! ## Chunker: the two-paragraph scenario (C1) -/

/-- C1: when the paragraph split of the content is exactly two paragraphs of
80 words each, `chunk_content` with `chunk_size = 150` and
`min_chunk_size = 50` returns exactly two chunks, numbered 1 and 2, the
first with `word_count = 80` and the second with `word_count ≥ 80`. -/
theorem chunk_two_eighty_word_paragraphs (content p1 p2 : Str)
    (hp : paragraphsOf content = [p1, p2]) (h1 : wc p1 = 80) (h2 : wc p2 = 80) :
    ∃ c1 c2, chunk_content 150 50 content = [c1, c2] ∧
      c1.section_number = 1 ∧ c2.section_number = 2 ∧
      c1.word_count = 80 ∧ 80 ≤ c2.word_count := by
  refine ⟨⟨p1, 1, 80⟩, ⟨spaceJoin [p1, p2], 2, 160⟩, ?_, rfl, rfl, rfl, by norm_num⟩
  rw [chunk_content, hp, chunkLoop_cons_skip _ _ _ _ _ _ _ (by simp),
    chunkLoop_cons_emit _ _ _ _ _ _ _ ⟨by omega, by simp⟩,
    chunkLoop_nil_emit _ _ _ _ _ ⟨by simp, by omega⟩]
  simp [h1, h2, lastSlice, spaceJoin, joinSep]

/-- Two concrete 80-word paragraphs for instantiating the two-paragraph
scenario. -/
def c1p1 : Str := spaceJoin (List.replicate 80 (pyStr "w"))

def c1p2 : Str := spaceJoin (List.replicate 80 (pyStr "v"))

def c1content : Str := c1p1 ++ pyStr "\n\n" ++ c1p2

set_option maxRecDepth 100000 in
theorem chunk_two_eighty_word_paragraphs_witness :
    ∃ c1 c2, chunk_content 150 50 c1content = [c1, c2] ∧
      c1.section_number = 1 ∧ c2.section_number = 2 ∧
      c1.word_count = 80 ∧ 80 ≤ c2.word_count :=
  chunk_two_eighty_word_paragraphs c1content c1p1 c1p2 (by decide) (by decide) (by decide)

/-! ## Chunker: one-paragraph overlap between consecutive chunks (C2) -/

theorem head?_append_left {α : Type} (l : List α) (x : List α) (h : l ≠ []) :
    (l ++ x).head? = l.head? := by
  cases l with
  | nil => exact absurd rfl h
  | cons a t => simp

theorem lastSlice_append_head? :
    ∀ (l : List Str), l ≠ [] → ∀ x, (lastSlice l ++ x).head? = l.getLast? := by
  intro l
  induction l with
  | nil => intro h; exact absurd rfl h
  | cons a t ih =>
    intro _ x
    cases t with
    | nil => simp [lastSlice]
    | cons b t' =>
      have e : lastSlice (a :: b :: t') = lastSlice (b :: t') := by
        simp [lastSlice, List.drop_succ_cons]
      rw [e, ih (by simp) x, List.getLast?_cons_cons]

theorem chunkLoopB_snd (csz msz : Nat) :
    ∀ paras buf cwc num,
      (chunkLoopB csz msz paras buf cwc num).map Prod.snd =
        chunkLoop csz msz paras buf cwc num := by
  intro paras
  induction paras with
  | nil =>
    intro buf cwc num
    rw [chunkLoopB, chunkLoop]
    by_cases h : buf ≠ [] ∧ msz ≤ cwc
    · simp [if_pos h]
    · simp [if_neg h]
  | cons para rest ih =>
    intro buf cwc num
    rw [chunkLoopB, chunkLoop]
    by_cases h : csz < cwc + wc para ∧ buf ≠ []
    · simp only [if_pos h, List.map_cons, ih]
    · simp only [if_neg h, ih]

theorem chunkLoopB_text (csz msz : Nat) :
    ∀ paras buf cwc num p, p ∈ chunkLoopB csz msz paras buf cwc num →
      p.2.text = spaceJoin p.1 := by
  intro paras
  induction paras with
  | nil =>
    intro buf cwc num p hp
    rw [chunkLoopB] at hp
    split at hp
    · simp at hp
      subst hp
      rfl
    · simp at hp
  | cons para rest ih =>
    intro buf cwc num p hp
    rw [chunkLoopB] at hp
    split at hp
    · rcases List.mem_cons.mp hp with h | h
      · subst h; rfl
      · exact ih _ _ _ p h
    · exact ih _ _ _ p hp

theorem chunkLoopB_head (csz msz : Nat) :
    ∀ paras buf cwc num, buf ≠ [] →
      ∀ b, ((chunkLoopB csz msz paras buf cwc num).map Prod.fst).head? = some b →
        b.head? = buf.head? := by
  intro paras
  induction paras with
  | nil =>
    intro buf cwc num hb b hhead
    rw [chunkLoopB] at hhead
    split at hhead
    · simp at hhead
      subst hhead
      rfl
    · simp at hhead
  | cons para rest ih =>
    intro buf cwc num hb b hhead
    rw [chunkLoopB] at hhead
    split at hhead
    · simp at hhead
      subst hhead
      rfl
    · rw [ih _ _ _ (by simp) b hhead, head?_append_left _ _ hb]

theorem chunkLoopB_chain (csz msz : Nat) :
    ∀ paras buf cwc num,
      List.Chain' (fun b1 b2 => b1.getLast? = b2.head?)
        ((chunkLoopB csz msz paras buf cwc num).map Prod.fst) := by
  intro paras
  induction paras with
  | nil =>
    intro buf cwc num
    rw [chunkLoopB]
    split
    · simp
    · simp
  | cons para rest ih =>
    intro buf cwc num
    rw [chunkLoopB]
    by_cases h : csz < cwc + wc para ∧ buf ≠ []
    · simp only [if_pos h, List.map_cons]
      refine List.chain'_cons'.mpr ⟨?_, ih _ _ _⟩
      intro y hy
      rw [chunkLoopB_head csz msz rest _ _ _ (by simp) y (Option.mem_def.mp hy),
        lastSlice_append_head? buf h.2]
    · simp only [if_neg h]
      exact ih _ _ _

/-- C2: for every input, each chunk's text is the space-join of its paragraph
buffer, and for any two consecutive chunk buffers the last paragraph of the
first equals the first paragraph of the second (one-paragraph overlap). -/
theorem chunk_overlap_is_last_paragraph (csz msz : Nat) (content : Str) :
    (chunk_content csz msz content).map Chunk.text =
        (chunkBuffers csz msz content).map spaceJoin ∧
      List.Chain' (fun b1 b2 => b1.getLast? = b2.head?)
        (chunkBuffers csz msz content) := by
  constructor
  · rw [chunk_content, ← chunkLoopB_snd, chunkBuffers, List.map_map, List.map_map]
    exact List.map_congr_left
      (fun p hp => by
        simp only [Function.comp_apply]
        exact chunkLoopB_text csz msz _ _ _ _ p hp)
  · exact chunkLoopB_chain csz msz _ _ _ _

/-! ## Chunker: word conservation and trailing discard (C5) -/

theorem consHead_ne_nil (c : Char) (L : List Str) : consHead c L ≠ [] := by
  cases L <;> simp [consHead]

theorem splitNN_ne_nil (s : Str) : splitNN s ≠ [] := by
  induction s using splitNN.induct with
  | case1 => simp [splitNN]
  | case2 rest ih => simp [splitNN]
  | case3 c rest hg ih =>
    rw [splitNN.eq_3 c rest hg]
    exact consHead_ne_nil c _

theorem joinSep_nn_splitNN : ∀ s : Str, joinSep ['\n', '\n'] (splitNN s) = s := by
  intro s
  induction s using splitNN.induct with
  | case1 => rfl
  | case2 rest ih =>
    rw [splitNN.eq_2, joinSep_cons _ _ _ (splitNN_ne_nil rest), ih]
    rfl
  | case3 c rest hg ih =>
    rw [splitNN.eq_3 c rest hg]
    cases hr : splitNN rest with
    | nil => exact absurd hr (splitNN_ne_nil rest)
    | cons h t =>
      rw [hr] at ih
      cases t with
      | nil =>
        simp only [consHead, joinSep] at ih ⊢
        rw [ih]
      | cons h2 t2 =>
        simp only [consHead]
        rw [joinSep_cons _ _ _ (by simp)] at ih
        rw [joinSep_cons _ _ _ (by simp), ← ih]
        simp

theorem pyWords_joinSep_nn : ∀ L : List Str,
    pyWords (joinSep ['\n', '\n'] L) = (L.map pyWords).flatten := by
  intro L
  induction L with
  | nil => simp [joinSep, pyWords_nil]
  | cons s rest ih =>
    cases rest with
    | nil => simp [joinSep]
    | cons s2 t =>
      rw [joinSep_cons _ _ _ (by simp)]
      have e : s ++ ['\n', '\n'] ++ joinSep ['\n', '\n'] (s2 :: t) =
          s ++ '\n' :: ('\n' :: joinSep ['\n', '\n'] (s2 :: t)) := by simp
      rw [e, pyWords_append_ws '\n' (by decide), pyWords_cons_ws '\n' _ (by decide), ih]
      simp

theorem rstripWs_spec : ∀ s : Str, ∃ t, s = rstripWs s ++ t ∧ allWs t := by
  intro s
  induction s with
  | nil => exact ⟨[], rfl, by intro c hc; simp at hc⟩
  | cons c rest ih =>
    rcases ih with ⟨t, ht, hall⟩
    cases hr : rstripWs rest with
    | nil =>
      rw [hr] at ht
      simp only [List.nil_append] at ht
      by_cases hc : isPySpace c
      · refine ⟨c :: rest, ?_, ?_⟩
        · simp [rstripWs, hr, hc]
        · intro d hd
          rcases List.mem_cons.mp hd with h | h
          · subst h; exact hc
          · exact hall d (ht ▸ h)
      · refine ⟨rest, ?_, fun d hd => hall d (ht ▸ hd)⟩
        simp [rstripWs, hr, hc]
    | cons a r' =>
      refine ⟨t, ?_, hall⟩
      have : rstripWs (c :: rest) = c :: rstripWs rest := by
        rw [rstripWs, hr]
      rw [this, hr, ← hr, List.cons_append, ← ht]

theorem pyWords_dropWhile_ws (s : Str) :
    pyWords (s.dropWhile isPySpace) = pyWords s := by
  induction s with
  | nil => rfl
  | cons c rest ih =>
    by_cases hc : isPySpace c
    · rw [List.dropWhile_cons_of_pos hc, ih, pyWords_cons_ws c rest hc]
    · rw [List.dropWhile_cons_of_neg hc]

theorem pyWords_rstripWs (s : Str) : pyWords (rstripWs s) = pyWords s := by
  rcases rstripWs_spec s with ⟨t, ht, hall⟩
  conv_rhs => rw [ht]
  rw [pyWords_append_allWs _ t hall]

theorem pyWords_pyStrip (s : Str) : pyWords (pyStrip s) = pyWords s := by
  rw [pyStrip, pyWords_rstripWs, pyWords_dropWhile_ws]

theorem wc_pyStrip (s : Str) : wc (pyStrip s) = wc s := by
  rw [wc, wc, pyWords_pyStrip]

theorem sum_wc_strip_filter : ∀ L : List Str,
    (((L.map pyStrip).filter (fun p => !p.isEmpty)).map wc).sum = (L.map wc).sum := by
  intro L
  induction L with
  | nil => rfl
  | cons s t ih =>
    simp only [List.map_cons, List.filter_cons]
    by_cases h : (pyStrip s).isEmpty
    · have h0 : wc s = 0 := by
        rw [← wc_pyStrip, List.isEmpty_iff.mp h]
        rfl
      simp [h, ih, h0]
    · simp [h, ih, wc_pyStrip]

theorem wc_eq_paragraph_sum (content : Str) :
    wc content = ((paragraphsOf content).map wc).sum := by
  have h1 : wc content = (((splitNN content).map pyWords).flatten).length := by
    rw [wc, ← pyWords_joinSep_nn, joinSep_nn_splitNN]
  rw [h1, List.length_flatten, List.map_map, paragraphsOf, sum_wc_strip_filter]
  rfl

theorem chunkLoop_sum (csz msz : Nat) :
    ∀ paras buf cwc num,
      cwc + (paras.map wc).sum ≤
        ((chunkLoop csz msz paras buf cwc num).map Chunk.word_count).sum +
          (if (loopFinal csz paras buf cwc).1 ≠ [] ∧ msz ≤ (loopFinal csz paras buf cwc).2
            then 0 else (loopFinal csz paras buf cwc).2) := by
  intro paras
  induction paras with
  | nil =>
    intro buf cwc num
    rw [chunkLoop, loopFinal]
    by_cases h : buf ≠ [] ∧ msz ≤ cwc
    · simp [if_pos h]
    · simp [if_neg h]
  | cons para rest ih =>
    intro buf cwc num
    rw [chunkLoop, loopFinal]
    by_cases h : csz < cwc + wc para ∧ buf ≠ []
    · simp only [if_pos h, List.map_cons, List.sum_cons]
      have hih := ih (lastSlice buf ++ [para]) (wc (spaceJoin (lastSlice buf)) + wc para) (num + 1)
      omega
    · simp only [if_neg h, List.map_cons, List.sum_cons]
      have hih := ih (buf ++ [para]) (cwc + wc para) num
      omega

theorem loopFinal_nil_imp (csz : Nat) :
    ∀ paras buf cwc, (buf = [] → cwc = 0) →
      ((loopFinal csz paras buf cwc).1 = [] → (loopFinal csz paras buf cwc).2 = 0) := by
  intro paras
  induction paras with
  | nil =>
    intro buf cwc h
    rw [loopFinal]
    exact h
  | cons para rest ih =>
    intro buf cwc h
    rw [loopFinal]
    by_cases hc : csz < cwc + wc para ∧ buf ≠ []
    · simp only [if_pos hc]
      exact ih _ _ (by intro hh; simp at hh)
    · simp only [if_neg hc]
      exact ih _ _ (by intro hh; simp at hh)

/-- C5: for every content and configuration, the summed word counts of the
returned chunks plus the discarded trailing word count cover the whole
content's word count, and a trailing buffer is discarded only when its word
count is below `min_chunk_size`. -/
theorem chunk_sum_covers_content (csz msz : Nat) (content : Str) :
    wc content ≤ ((chunk_content csz msz content).map Chunk.word_count).sum +
        discardedWc csz msz content ∧
      (discardedWc csz msz content ≠ 0 → discardedWc csz msz content < msz) := by
  constructor
  · have h := chunkLoop_sum csz msz (paragraphsOf content) [] 0 1
    rw [wc_eq_paragraph_sum]
    simp only [chunk_content, discardedWc]
    omega
  · intro hne
    simp only [discardedWc] at hne ⊢
    by_cases hc : (loopFinal csz (paragraphsOf content) [] 0).1 ≠ [] ∧
        msz ≤ (loopFinal csz (paragraphsOf content) [] 0).2
    · rw [if_pos hc] at hne
      exact absurd rfl hne
    · rw [if_neg hc] at hne ⊢
      have h0 := loopFinal_nil_imp csz (paragraphsOf content) [] 0 (fun _ => rfl)
      rcases not_and_or.mp hc with h | h
      · exact absurd (h0 (not_not.mp h)) hne
      · omega

theorem chunk_sum_covers_content_witness :
    discardedWc 150 50 (pyStr "a b c") ≠ 0 ∧ discardedWc 150 50 (pyStr "a b c") < 50 :=
  ⟨by decide, (chunk_sum_covers_content 150 50 (pyStr "a b c")).2 (by decide)⟩

/-! ## The cleaner (`BlogCrawler._clean_content`) -/

/-- Effect of `re.sub(r'\n\s*\n', '\n\n', ...)` on one maximal whitespace
run: when the run holds at least two newlines, the greedy leftmost match
spans from its first to its last newline and is replaced by exactly two
newlines; otherwise there is no match inside the run. -/
def processRun (run : Str) : Str :=
  if 2 ≤ run.count '\n' then
    run.takeWhile (fun c => c ≠ '\n') ++
      '\n' :: '\n' :: (run.reverse.takeWhile (fun c => c ≠ '\n')).reverse
  else run

/-- Scanning loop for the blank-line collapse; `pending` holds the
(reversed) whitespace run currently being read. -/
def subBlankA : Str → Str → Str
  | pending, [] => processRun pending.reverse
  | pending, c :: rest =>
    if isPySpace c then subBlankA (c :: pending) rest
    else processRun pending.reverse ++ c :: subBlankA [] rest

/-- `content = re.sub(r'\n\s*\n', '\n\n', content)`. -/
def subBlank (content : Str) : Str := subBlankA [] content

/-- Scanning loop for `re.sub(r' +', ' ', ...)`; the flag records whether
the previous character was a space (i.e. we are inside a space run). -/
def subSpacesA : Bool → Str → Str
  | _, [] => []
  | inRun, c :: rest =>
    if c = ' ' then
      if inRun then subSpacesA true rest else ' ' :: subSpacesA true rest
    else c :: subSpacesA false rest

/-- `content = re.sub(r' +', ' ', content)`. -/
def subSpaces (content : Str) : Str := subSpacesA false content

/-- `BlogCrawler._clean_content`: collapse blank-line runs, collapse space
runs, drop lines whose stripped length is at most 20, rejoin and strip. -/
def _clean_content (content : Str) : Str :=
  let c1 := subBlank content
  let c2 := subSpaces c1
  let lines := splitNl c2
  let cleaned_lines := lines.filter (fun line => 20 < (pyStrip line).length)
  pyStrip (nlJoin cleaned_lines)

example : subBlank (pyStr "a\n \n\nb") = pyStr "a\n\nb" := by decide

example : subBlank (pyStr "a\n\r\n\rb") = pyStr "a\n\n\rb" := by decide

example : subSpaces (pyStr "a   b c  ") = pyStr "a b c " := by decide

example : _clean_content (pyStr "short") = [] := by decide

example :
    _clean_content (pyStr "aaaaaaaaaaaaaaaaaaaaaaaaa\n\n\nbbbbbbbbbbbbbbbbbbbbbbbbb") =
      pyStr "aaaaaaaaaaaaaaaaaaaaaaaaa\nbbbbbbbbbbbbbbbbbbbbbbbbb" := by decide

/-! ## Line-split lemmas -/

theorem splitNl_cons_ne (c : Char) (s : Str) (h : c ≠ '\n') :
    splitNl (c :: s) = consHead c (splitNl s) :=
  splitNl.eq_3 c s (fun hc => h hc)

theorem splitNl_ne_nil (s : Str) : splitNl s ≠ [] := by
  induction s using splitNl.induct with
  | case1 => simp [splitNl]
  | case2 rest ih => simp [splitNl]
  | case3 c rest hg ih =>
    rw [splitNl_cons_ne c rest (fun h => hg h)]
    exact consHead_ne_nil c _

theorem nlJoin_splitNl : ∀ s : Str, nlJoin (splitNl s) = s := by
  intro s
  induction s using splitNl.induct with
  | case1 => rfl
  | case2 rest ih =>
    rw [splitNl, nlJoin, joinSep_cons _ _ _ (splitNl_ne_nil rest)]
    rw [nlJoin] at ih
    rw [ih]
    rfl
  | case3 c rest hg ih =>
    rw [splitNl_cons_ne c rest (fun h => hg h)]
    cases hr : splitNl rest with
    | nil => exact absurd hr (splitNl_ne_nil rest)
    | cons h t =>
      rw [hr] at ih
      cases t with
      | nil =>
        simp only [consHead, nlJoin, joinSep] at ih ⊢
        rw [ih]
      | cons h2 t2 =>
        simp only [consHead, nlJoin] at ih ⊢
        rw [joinSep_cons _ _ _ (by simp)] at ih
        rw [joinSep_cons _ _ _ (by simp), ← ih]
        simp

theorem splitNl_mem_no_nl : ∀ (s : Str), ∀ l ∈ splitNl s, '\n' ∉ l := by
  intro s
  induction s using splitNl.induct with
  | case1 =>
    intro l hl
    simp [splitNl] at hl
    simp [hl]
  | case2 rest ih =>
    intro l hl
    rw [splitNl] at hl
    rcases List.mem_cons.mp hl with h | h
    · simp [h]
    · exact ih l h
  | case3 c rest hg ih =>
    intro l hl
    rw [splitNl_cons_ne c rest (fun h => hg h)] at hl
    cases hr : splitNl rest with
    | nil => exact absurd hr (splitNl_ne_nil rest)
    | cons h t =>
      rw [hr] at hl
      simp only [consHead] at hl
      rcases List.mem_cons.mp hl with h1 | h1
      · subst h1
        intro hmem
        rcases List.mem_cons.mp hmem with h2 | h2
        · exact hg h2.symm
        · exact ih h (by rw [hr]; exact List.mem_cons_self h t) h2
      · exact ih l (by rw [hr]; exact List.mem_cons_of_mem h h1)

theorem splitNl_no_nl : ∀ (s : Str), '\n' ∉ s → splitNl s = [s] := by
  intro s
  induction s using splitNl.induct with
  | case1 => intro _; rfl
  | case2 rest ih => intro h; simp at h
  | case3 c rest hg ih =>
    intro h
    rw [splitNl_cons_ne c rest (fun hc => hg hc), ih (fun hm => h (List.mem_cons_of_mem c hm))]
    rfl

theorem splitNl_append_line (l : Str) (hl : '\n' ∉ l) :
    ∀ rest, splitNl (l ++ '\n' :: rest) = l :: splitNl rest := by
  induction l with
  | nil => intro rest; simp [splitNl]
  | cons a l' ih =>
    intro rest
    have ha : a ≠ '\n' := fun h => hl (h ▸ List.mem_cons_self a l')
    rw [List.cons_append, splitNl_cons_ne a _ ha, ih (fun hm => hl (List.mem_cons_of_mem a hm))]
    rfl

theorem splitNl_nlJoin : ∀ L : List Str, (∀ l ∈ L, '\n' ∉ l) → L ≠ [] →
    splitNl (nlJoin L) = L := by
  intro L
  induction L with
  | nil => intro _ h; exact absurd rfl h
  | cons l L' ih =>
    intro hno _
    cases L' with
    | nil => exact splitNl_no_nl l (hno l (by simp))
    | cons l2 t =>
      rw [nlJoin, joinSep_cons _ _ _ (by simp)]
      have e : l ++ ['\n'] ++ joinSep ['\n'] (l2 :: t) = l ++ '\n' :: nlJoin (l2 :: t) := by
        simp [nlJoin]
      rw [e, splitNl_append_line l (hno l (by simp)), ih (fun x hx => hno x (by simp [hx])) (by simp)]

theorem splitNl_head : ∀ s : Str,
    (splitNl s).head? = some (s.takeWhile (fun c => c ≠ '\n')) := by
  intro s
  induction s using splitNl.induct with
  | case1 => rfl
  | case2 rest ih => simp [splitNl, List.takeWhile_cons]
  | case3 c rest hg ih =>
    rw [splitNl_cons_ne c rest (fun h => hg h)]
    cases hr : splitNl rest with
    | nil => exact absurd hr (splitNl_ne_nil rest)
    | cons h t =>
      rw [hr] at ih
      simp only [List.head?_cons, Option.some_inj] at ih
      rw [List.takeWhile_cons_of_pos (by simpa using fun hc => hg hc)]
      simp [consHead, ih]

theorem splitNl_mem_subset : ∀ (s : Str), ∀ l ∈ splitNl s, ∀ c ∈ l, c ∈ s := by
  intro s
  induction s using splitNl.induct with
  | case1 =>
    intro l hl
    simp [splitNl] at hl
    simp [hl]
  | case2 rest ih =>
    intro l hl c hc
    rw [splitNl] at hl
    rcases List.mem_cons.mp hl with h | h
    · simp [h] at hc
    · exact List.mem_cons_of_mem _ (ih l h c hc)
  | case3 a rest hg ih =>
    intro l hl c hc
    rw [splitNl_cons_ne a rest (fun h => hg h)] at hl
    cases hr : splitNl rest with
    | nil => exact absurd hr (splitNl_ne_nil rest)
    | cons h t =>
      rw [hr] at hl
      simp only [consHead] at hl
      rcases List.mem_cons.mp hl with h1 | h1
      · subst h1
        rcases List.mem_cons.mp hc with h2 | h2
        · simp [h2]
        · exact List.mem_cons_of_mem _ (ih h (by rw [hr]; exact List.mem_cons_self h t) c h2)
      · exact List.mem_cons_of_mem _ (ih l (by rw [hr]; exact List.mem_cons_of_mem h h1) c hc)

theorem splitNl_append : ∀ u v : Str,
    splitNl (u ++ v) =
      (splitNl u).dropLast ++
        (((splitNl u).getLastD [] ++ (splitNl v).headD []) :: (splitNl v).tail) := by
  intro u
  induction u using splitNl.induct with
  | case1 =>
    intro v
    cases hv : splitNl v with
    | nil => exact absurd hv (splitNl_ne_nil v)
    | cons h t => simp [splitNl, hv]
  | case2 rest ih =>
    intro v
    rw [List.cons_append, splitNl, ih v, splitNl]
    cases hr : splitNl rest with
    | nil => exact absurd hr (splitNl_ne_nil rest)
    | cons h t => simp [List.getLastD_cons]
  | case3 c rest hg ih =>
    intro v
    rw [List.cons_append, splitNl_cons_ne c _ (fun h => hg h), ih v,
      splitNl_cons_ne c rest (fun h => hg h)]
    cases hr : splitNl rest with
    | nil => exact absurd hr (splitNl_ne_nil rest)
    | cons h t =>
      cases t with
      | nil => simp [consHead]
      | cons h2 t2 => simp [consHead, List.getLastD_cons]

/-! ## Strip lemmas -/

theorem rstripWs_eq_nil_of_allWs : ∀ t : Str, allWs t → rstripWs t = [] := by
  intro t
  induction t with
  | nil => intro _; rfl
  | cons c rest ih =>
    intro h
    rw [rstripWs, ih (fun d hd => h d (List.mem_cons_of_mem c hd))]
    simp [h c (List.mem_cons_self c rest)]

theorem rstripWs_append_allWs : ∀ (x t : Str), allWs t → rstripWs (x ++ t) = rstripWs x := by
  intro x t ht
  induction x with
  | nil => simpa using rstripWs_eq_nil_of_allWs t ht
  | cons c x' ih =>
    rw [List.cons_append, rstripWs, ih, rstripWs]

theorem pyStrip_cons_ws (c : Char) (s : Str) (h : isPySpace c = true) :
    pyStrip (c :: s) = pyStrip s := by
  rw [pyStrip, pyStrip, List.dropWhile_cons_of_pos h]

theorem pyStrip_allWs (t : Str) (h : allWs t) : pyStrip t = [] := by
  rw [pyStrip, List.dropWhile_eq_nil_iff.mpr (fun x hx => h x hx)]
  rfl

theorem pyStrip_append_allWs : ∀ (x t : Str), allWs t → pyStrip (x ++ t) = pyStrip x := by
  intro x t ht
  induction x with
  | nil => simpa using pyStrip_allWs t ht
  | cons c x' ih =>
    by_cases hc : isPySpace c
    · rw [List.cons_append, pyStrip_cons_ws c _ hc, pyStrip_cons_ws c _ hc, ih]
    · rw [List.cons_append, pyStrip, List.dropWhile_cons_of_neg hc, pyStrip,
        List.dropWhile_cons_of_neg hc, ← List.cons_append, rstripWs_append_allWs _ t ht]

theorem rstripWs_rstripWs : ∀ s : Str, rstripWs (rstripWs s) = rstripWs s := by
  intro s
  induction s with
  | nil => rfl
  | cons c rest ih =>
    cases hr : rstripWs rest with
    | nil =>
      have e : rstripWs (c :: rest) = if isPySpace c then [] else [c] := by
        rw [rstripWs, hr]
      by_cases hc : isPySpace c
      · rw [e, if_pos hc]
        rfl
      · rw [e, if_neg hc]
        simp [rstripWs, hc]
    | cons a r' =>
      have e : rstripWs (c :: rest) = c :: rstripWs rest := by rw [rstripWs, hr]
      rw [e, rstripWs, ih, hr]

theorem rstripWs_head? : ∀ s : Str, rstripWs s = [] ∨ (rstripWs s).head? = s.head? := by
  intro s
  cases s with
  | nil => exact Or.inl rfl
  | cons c rest =>
    cases hr : rstripWs rest with
    | nil =>
      by_cases hc : isPySpace c
      · exact Or.inl (by rw [rstripWs, hr]; simp [hc])
      · refine Or.inr ?_
        rw [rstripWs, hr]
        simp [hc]
    | cons a r' =>
      refine Or.inr ?_
      rw [rstripWs, hr]
      rfl

theorem dropWhile_head_not {α : Type} (p : α → Bool) :
    ∀ l : List α, l.dropWhile p = [] ∨
      ∃ c t, l.dropWhile p = c :: t ∧ p c = false := by
  intro l
  induction l with
  | nil => exact Or.inl rfl
  | cons c rest ih =>
    by_cases hc : p c
    · rw [List.dropWhile_cons_of_pos hc]
      exact ih
    · rw [List.dropWhile_cons_of_neg hc]
      exact Or.inr ⟨c, rest, rfl, by simpa using hc⟩

theorem pyStrip_pyStrip : ∀ s : Str, pyStrip (pyStrip s) = pyStrip s := by
  intro s
  rcases dropWhile_head_not isPySpace s with h2 | ⟨c, t, h2, hc⟩
  · have e : pyStrip s = [] := by rw [pyStrip, h2]; rfl
    rw [e]
    rfl
  · rcases rstripWs_head? (c :: t) with hz | hz
    · have e : pyStrip s = [] := by rw [pyStrip, h2, hz]
      rw [e]
      rfl
    · cases hz2 : rstripWs (c :: t) with
      | nil =>
        have e : pyStrip s = [] := by rw [pyStrip, h2, hz2]
        rw [e]
        rfl
      | cons a r' =>
        rw [hz2] at hz
        simp only [List.head?_cons, Option.some_inj] at hz
        rw [hz] at hz2
        have e1 : pyStrip s = c :: r' := by rw [pyStrip, h2, hz2]
        rw [e1, pyStrip, List.dropWhile_cons_of_neg (by simp [hc]), ← hz2, rstripWs_rstripWs,
          hz2]

theorem pyStrip_ne_nil_nonws (x : Str) (h : pyStrip x ≠ []) :
    ∃ c ∈ x, isPySpace c = false := by
  rcases dropWhile_head_not isPySpace x with h2 | ⟨c, t, h2, hc⟩
  · rw [pyStrip, h2] at h
    exact absurd rfl h
  · exact ⟨c, (List.dropWhile_suffix isPySpace).subset (h2 ▸ List.mem_cons_self c t), hc⟩

/-! ## Lines of a stripped string -/

theorem lines_dropWhile_strip : ∀ s : Str, ∀ l ∈ splitNl (s.dropWhile isPySpace),
    ∃ lp ∈ splitNl s, pyStrip l = pyStrip lp := by
  intro s
  induction s with
  | nil => intro l hl; exact ⟨l, hl, rfl⟩
  | cons c rest ih =>
    intro l hl
    by_cases hc : isPySpace c
    · rw [List.dropWhile_cons_of_pos hc] at hl
      rcases ih l hl with ⟨lp, hlp, he⟩
      by_cases hnl : c = '\n'
      · subst hnl
        exact ⟨lp, by rw [splitNl]; exact List.mem_cons_of_mem _ hlp, he⟩
      · rw [splitNl_cons_ne c rest hnl]
        cases hr : splitNl rest with
        | nil => exact absurd hr (splitNl_ne_nil rest)
        | cons h t =>
          rw [hr] at hlp
          rcases List.mem_cons.mp hlp with h1 | h1
          · refine ⟨c :: h, by simp [consHead], ?_⟩
            rw [he, h1, pyStrip_cons_ws c h hc]
          · exact ⟨lp, by simp [consHead, h1], he⟩
    · rw [List.dropWhile_cons_of_neg hc] at hl
      exact ⟨l, hl, rfl⟩

theorem allWs_line : ∀ (t : Str), allWs t → ∀ l ∈ splitNl t, allWs l :=
  fun t ht l hl c hc => ht c (splitNl_mem_subset t l hl c hc)

theorem getLastD_cons_irrel {α : Type} (a : α) (t : List α) (d1 d2 : α) :
    (a :: t).getLastD d1 = (a :: t).getLastD d2 := rfl

theorem mem_dropLast_or_getLastD {α : Type} [Inhabited α] :
    ∀ (L : List α), ∀ l ∈ L, l ∈ L.dropLast ∨ l = L.getLastD default := by
  intro L
  induction L with
  | nil => intro l hl; simp at hl
  | cons a t ih =>
    intro l hl
    cases t with
    | nil =>
      simp at hl
      right
      simp [hl]
    | cons b t' =>
      have hd : (a :: b :: t').dropLast = a :: (b :: t').dropLast := rfl
      rcases List.mem_cons.mp hl with h | h
      · left
        rw [hd, h]
        exact List.mem_cons_self a _
      · rcases ih l h with h2 | h2
        · left
          rw [hd]
          exact List.mem_cons_of_mem a h2
        · right
          rw [h2]
          rw [show (a :: b :: t').getLastD default = (b :: t').getLastD a from rfl]
          exact (getLastD_cons_irrel b t' default a).symm ▸ rfl

theorem lines_append_allWs (u t : Str) (ht : allWs t) :
    ∀ l ∈ splitNl u, ∃ lp ∈ splitNl (u ++ t), pyStrip l = pyStrip lp := by
  intro l hl
  rw [splitNl_append u t]
  rcases mem_dropLast_or_getLastD (splitNl u) l hl with h1 | h1
  · exact ⟨l, List.mem_append_left _ h1, rfl⟩
  · refine ⟨(splitNl u).getLastD [] ++ (splitNl t).headD [],
      List.mem_append_right _ (by simp), ?_⟩
    have hhd : (splitNl t).headD [] ∈ splitNl t := by
      cases htt : splitNl t with
      | nil => exact absurd htt (splitNl_ne_nil t)
      | cons a r => simp
    have hw : allWs ((splitNl t).headD []) := allWs_line t ht _ hhd
    rw [pyStrip_append_allWs _ _ hw, h1]
    rfl

theorem lines_rstrip_strip (s : Str) : ∀ l ∈ splitNl (rstripWs s),
    ∃ lp ∈ splitNl s, pyStrip l = pyStrip lp := by
  intro l hl
  rcases rstripWs_spec s with ⟨t, ht, hall⟩
  rcases lines_append_allWs (rstripWs s) t hall l hl with ⟨lp, hlp, he⟩
  rw [← ht] at hlp
  exact ⟨lp, hlp, he⟩

theorem lines_pyStrip_strip (s : Str) : ∀ l ∈ splitNl (pyStrip s),
    ∃ lp ∈ splitNl s, pyStrip l = pyStrip lp := by
  intro l hl
  rw [pyStrip] at hl
  rcases lines_rstrip_strip (s.dropWhile isPySpace) l hl with ⟨l1, hl1, he1⟩
  rcases lines_dropWhile_strip s l1 hl1 with ⟨l2, hl2, he2⟩
  exact ⟨l2, hl2, he1.trans he2⟩

/-! ## Cleaner output lines (C6, C10) -/

theorem clean_lines_long (content : Str) (hne : _clean_content content ≠ []) :
    ∀ l ∈ splitNl (_clean_content content), 20 < (pyStrip l).length := by
  intro l hl
  have hout : _clean_content content =
      pyStrip (nlJoin ((splitNl (subSpaces (subBlank content))).filter
        (fun line => decide (20 < (pyStrip line).length)))) := rfl
  set kept := (splitNl (subSpaces (subBlank content))).filter
      (fun line => decide (20 < (pyStrip line).length)) with hkdef
  have hk_ne : kept ≠ [] := by
    intro h0
    apply hne
    rw [hout, h0]
    rfl
  have hnonl : ∀ x ∈ kept, '\n' ∉ x := fun x hx =>
    splitNl_mem_no_nl _ x (List.mem_of_mem_filter hx)
  have hsplit : splitNl (nlJoin kept) = kept := splitNl_nlJoin kept hnonl hk_ne
  rw [hout] at hl
  rcases lines_pyStrip_strip (nlJoin kept) l hl with ⟨lp, hlp, he⟩
  rw [hsplit] at hlp
  have hp := (List.mem_filter.mp hlp).2
  rw [he]
  exact of_decide_eq_true hp

theorem splitNN_single : ∀ s : Str,
    (∀ l ∈ (splitNl s).tail, ∃ c ∈ l, isPySpace c = false) → splitNN s = [s] := by
  intro s
  induction s using splitNN.induct with
  | case1 => intro _; rfl
  | case2 rest ih =>
    intro h
    exfalso
    have hmem : ([] : Str) ∈ (splitNl ('\n' :: '\n' :: rest)).tail := by
      rw [splitNl, splitNl]
      simp
    rcases h [] hmem with ⟨c, hc, _⟩
    simp at hc
  | case3 c rest hg ih =>
    intro h
    rw [splitNN.eq_3 c rest hg]
    have hrest : ∀ l ∈ (splitNl rest).tail, ∃ d ∈ l, isPySpace d = false := by
      intro l hl
      by_cases hnl : c = '\n'
      · subst hnl
        apply h
        rw [splitNl]
        simpa using List.mem_of_mem_tail hl
      · apply h
        rw [splitNl_cons_ne c rest hnl]
        cases hr : splitNl rest with
        | nil => exact absurd hr (splitNl_ne_nil rest)
        | cons a t =>
          simp only [consHead, List.tail_cons]
          rw [hr] at hl
          simpa using hl
    rw [ih hrest]
    rfl

/-- C10 (amended): for every input whose cleaned output is nonempty, every
line of the output has stripped length above 20 — in particular no blank
line survives — and the paragraph split of the cleaned output is the single
paragraph consisting of the whole output. -/
theorem clean_lines_long_and_single_paragraph (content : Str)
    (hne : _clean_content content ≠ []) :
    (∀ l ∈ splitNl (_clean_content content), 20 < (pyStrip l).length) ∧
      paragraphsOf (_clean_content content) = [_clean_content content] := by
  refine ⟨clean_lines_long content hne, ?_⟩
  have hstrip : pyStrip (_clean_content content) = _clean_content content :=
    pyStrip_pyStrip _
  have hlines := clean_lines_long content hne
  have hnn : splitNN (_clean_content content) = [_clean_content content] := by
    apply splitNN_single
    intro l hl
    have hlm : l ∈ splitNl (_clean_content content) := List.mem_of_mem_tail hl
    have hlen := hlines l hlm
    have hpn : pyStrip l ≠ [] := by
      intro h0
      rw [h0] at hlen
      simp at hlen
    exact pyStrip_ne_nil_nonws l hpn
  rw [paragraphsOf, hnn]
  simp [hstrip, List.isEmpty_iff, hne]

/-- C10 fails as literally stated: cleaning the 5-character input "short"
yields the empty string, whose line split is the single empty line, which
does not have stripped length above 20. -/
theorem clean_lines_long_counterexample :
    splitNl (_clean_content (pyStr "short")) = [[]] ∧
      ¬ (∀ l ∈ splitNl (_clean_content (pyStr "short")), 20 < (pyStrip l).length) := by
  decide

/-- Concrete 25-character line used to instantiate the amended C10. -/
def c10line : Str := pyStr "cccccccccccccccccccccccc1"

theorem clean_lines_long_and_single_paragraph_witness :
    20 < (pyStrip c10line).length :=
  (clean_lines_long_and_single_paragraph c10line (by decide)).1 c10line (by decide)

/-- Concrete lines and input showing what happens to a blank-line run. -/
def c6a : Str := pyStr "aaaaaaaaaaaaaaaaaaaaaaaaa"

def c6b : Str := pyStr "bbbbbbbbbbbbbbbbbbbbbbbbb"

def c6input : Str := c6a ++ pyStr "\n\n" ++ c6b

/-- C6 fails as stated: for an input with a blank line between two retained
lines, the cleaned output contains the two retained lines adjacent with no
blank line between them (the short-line filter drops every blank line). -/
theorem clean_blank_line_counterexample :
    splitNl c6input = [c6a, [], c6b] ∧
      splitNl (_clean_content c6input) = [c6a, c6b] ∧
      ¬ ∃ l ∈ splitNl (_clean_content c6input), pyStrip l = [] := by
  decide

/-- C6 (amended): wherever the raw input had blank lines, the nonempty
cleaned output contains no blank line at all: every line of the output has a
nonempty strip, because the short-line filter drops all blank lines after
the blank-line collapse. -/
theorem clean_output_no_blank_lines (content : Str) (hne : _clean_content content ≠ []) :
    ∀ l ∈ splitNl (_clean_content content), pyStrip l ≠ [] := by
  intro l hl h0
  have hlen := clean_lines_long content hne l hl
  rw [h0] at hlen
  simp at hlen

theorem clean_output_no_blank_lines_witness : pyStrip c6a ≠ [] :=
  clean_output_no_blank_lines c6input (by decide) c6a (by decide)

/-! ## Cleaner idempotence (C7): blank-line pass is fixed on cleaned text -/

/-- Every all-whitespace infix of `s` holds at most one newline; on such
strings the blank-line collapse has nothing to rewrite. -/
def runsOK (s : Str) : Prop :=
  ∀ x r y, s = x ++ r ++ y → allWs r → r.count '\n' ≤ 1

/-- Continuation after a whitespace run in the blank-line scan. -/
def afterRun : Str → Str
  | [] => []
  | c :: rest => c :: subBlankA [] rest

theorem subBlankA_runs : ∀ (s pending : Str),
    subBlankA pending s =
      processRun (pending.reverse ++ s.takeWhile isPySpace) ++
        afterRun (s.dropWhile isPySpace) := by
  intro s
  induction s with
  | nil => intro pending; simp [subBlankA, afterRun]
  | cons c rest ih =>
    intro pending
    by_cases hc : isPySpace c
    · rw [subBlankA, if_pos hc, ih (c :: pending), List.takeWhile_cons_of_pos hc,
        List.dropWhile_cons_of_pos hc]
      simp [List.append_assoc]
    · rw [subBlankA, if_neg hc, List.takeWhile_cons_of_neg hc, List.dropWhile_cons_of_neg hc]
      simp [afterRun]

theorem processRun_fix (run : Str) (h : run.count '\n' ≤ 1) : processRun run = run := by
  rw [processRun, if_neg (by omega)]

theorem dropWhile_length_le {α : Type} (p : α → Bool) (l : List α) :
    (l.dropWhile p).length ≤ l.length := (List.dropWhile_suffix p).length_le

theorem subBlankA_fix_aux : ∀ (n : Nat) (s : Str), s.length ≤ n → runsOK s →
    subBlankA [] s = s := by
  intro n
  induction n with
  | zero =>
    intro s hs _
    have he : s = [] := List.length_eq_zero.mp (Nat.le_zero.mp hs)
    subst he
    rfl
  | succ n ih =>
    intro s hs hok
    rw [subBlankA_runs s [], List.reverse_nil, List.nil_append]
    have htw : allWs (s.takeWhile isPySpace) := fun d hd => List.mem_takeWhile_imp hd
    have hcnt : (s.takeWhile isPySpace).count '\n' ≤ 1 :=
      hok [] (s.takeWhile isPySpace) (s.dropWhile isPySpace)
        (by rw [List.nil_append, List.takeWhile_append_dropWhile]) htw
    rw [processRun_fix _ hcnt]
    cases hd : s.dropWhile isPySpace with
    | nil =>
      rw [afterRun, List.append_nil]
      conv_rhs => rw [← List.takeWhile_append_dropWhile isPySpace s, hd]
      rw [List.append_nil]
    | cons dch rest' =>
      rw [afterRun]
      have hlen : rest'.length ≤ n := by
        have h1 : (s.dropWhile isPySpace).length ≤ s.length := dropWhile_length_le _ _
        rw [hd] at h1
        simp only [List.length_cons] at h1
        omega
      have hro : runsOK rest' := by
        intro x r y hxy hall
        apply hok (s.takeWhile isPySpace ++ dch :: x) r y ?_ hall
        conv_lhs => rw [← List.takeWhile_append_dropWhile isPySpace s, hd, hxy]
        simp [List.append_assoc]
      rw [ih rest' hlen hro]
      conv_rhs => rw [← List.takeWhile_append_dropWhile isPySpace s, hd]

theorem subBlank_fix (s : Str) (h : runsOK s) : subBlank s = s :=
  subBlankA_fix_aux s.length s le_rfl h

theorem first_occ_nl : ∀ l : Str, '\n' ∈ l → ∃ l1 l2, l = l1 ++ '\n' :: l2 ∧ '\n' ∉ l1 := by
  intro l
  induction l with
  | nil => intro h; simp at h
  | cons a l' ih =>
    intro h
    by_cases ha : a = '\n'
    · subst ha
      exact ⟨[], l', rfl, by simp⟩
    · have hm : '\n' ∈ l' := by
        rcases List.mem_cons.mp h with h1 | h1
        · exact absurd h1.symm ha
        · exact h1
      rcases ih hm with ⟨l1, l2, he, hno⟩
      refine ⟨a :: l1, l2, by simp [he], ?_⟩
      intro hmem
      rcases List.mem_cons.mp hmem with h1 | h1
      · exact ha h1.symm
      · exact hno h1

theorem count_two_split : ∀ r : Str, 2 ≤ r.count '\n' →
    ∃ r1 r2 r3, r = r1 ++ '\n' :: (r2 ++ '\n' :: r3) ∧ '\n' ∉ r2 := by
  intro r
  induction r with
  | nil => intro h; simp at h
  | cons a r' ih =>
    intro h
    by_cases ha : a = '\n'
    · subst ha
      rw [List.count_cons_self] at h
      have hmem : '\n' ∈ r' := List.count_pos_iff.mp (by omega)
      rcases first_occ_nl r' hmem with ⟨l1, l2, he, hno⟩
      exact ⟨[], l1, l2, by simp [he], hno⟩
    · rw [List.count_cons_of_ne (fun hh => ha hh.symm)] at h
      rcases ih h with ⟨r1, r2, r3, he, hno⟩
      exact ⟨a :: r1, r2, r3, by simp [he], hno⟩

theorem mid_line_tail : ∀ (u l v : Str), '\n' ∉ l →
    l ∈ (splitNl (u ++ '\n' :: (l ++ '\n' :: v))).tail := by
  intro u
  induction u using splitNl.induct with
  | case1 =>
    intro l v hl
    rw [List.nil_append, splitNl.eq_2, splitNl_append_line l hl]
    simp
  | case2 rest ih =>
    intro l v hl
    rw [List.cons_append, splitNl.eq_2]
    simp only [List.tail_cons]
    exact List.mem_of_mem_tail (ih l v hl)
  | case3 c rest hg ih =>
    intro l v hl
    rw [List.cons_append, splitNl_cons_ne c _ (fun h => hg h)]
    cases hr : splitNl (rest ++ '\n' :: (l ++ '\n' :: v)) with
    | nil => exact absurd hr (splitNl_ne_nil _)
    | cons a t =>
      simp only [consHead, List.tail_cons]
      have hm := ih l v hl
      rw [hr] at hm
      simpa using hm

theorem lines_to_runsOK (s : Str)
    (h : ∀ l ∈ (splitNl s).tail, ∃ c ∈ l, isPySpace c = false) : runsOK s := by
  intro x r y hxy hall
  by_contra hcnt
  push_neg at hcnt
  rcases count_two_split r (by omega) with ⟨r1, r2, r3, he, hno⟩
  have hmem : r2 ∈ (splitNl s).tail := by
    rw [hxy, he]
    have e : x ++ (r1 ++ '\n' :: (r2 ++ '\n' :: r3)) ++ y =
        (x ++ r1) ++ '\n' :: (r2 ++ '\n' :: (r3 ++ y)) := by
      simp [List.append_assoc]
    rw [e]
    exact mid_line_tail (x ++ r1) r2 (r3 ++ y) hno
  rcases h r2 hmem with ⟨c, hc, hcw⟩
  have hcs : isPySpace c = true := hall c (by rw [he]; simp [hc])
  rw [hcs] at hcw
  simp at hcw

/-- No two adjacent spaces; on such strings the space collapse is the
identity. -/
def ndR (a b : Char) : Prop := ¬(a = ' ' ∧ b = ' ')

theorem subSpacesA_chain : ∀ (s : Str) (flag : Bool),
    List.Chain' ndR (subSpacesA flag s) ∧
      (flag = true → (subSpacesA flag s).head? ≠ some ' ') := by
  intro s
  induction s with
  | nil =>
    intro flag
    constructor
    · simp [subSpacesA]
    · intro _
      simp [subSpacesA]
  | cons c rest ih =>
    intro flag
    by_cases hc : c = ' '
    · subst hc
      cases flag with
      | true =>
        rw [subSpacesA, if_pos rfl]
        simp only [if_pos rfl]
        exact ⟨(ih true).1, fun _ => (ih true).2 rfl⟩
      | false =>
        rw [subSpacesA, if_pos rfl]
        simp only [Bool.false_eq_true, if_neg (by simp : ¬False)]
        constructor
        · refine List.chain'_cons'.mpr ⟨?_, (ih true).1⟩
          intro y hy
          intro hpair
          have hne := (ih true).2 rfl
          rw [Option.mem_def] at hy
          rw [hy] at hne
          exact hne (by rw [hpair.2])
        · intro hfl
          simp at hfl
    · rw [subSpacesA, if_neg hc]
      constructor
      · refine List.chain'_cons'.mpr ⟨?_, (ih false).1⟩
        intro y hy hpair
        exact hc hpair.1
      · intro _
        simp [hc]

theorem subSpacesA_fix : ∀ s : Str, List.Chain' ndR s →
    subSpacesA false s = s ∧ (s.head? ≠ some ' ' → subSpacesA true s = s) := by
  intro s
  induction s with
  | nil => intro _; exact ⟨rfl, fun _ => rfl⟩
  | cons c rest ih =>
    intro hch
    have hcht : List.Chain' ndR rest := hch.tail
    by_cases hc : c = ' '
    · subst hc
      constructor
      · rw [subSpacesA, if_pos rfl]
        simp only [Bool.false_eq_true, if_neg (by simp : ¬False)]
        have hh : rest.head? ≠ some ' ' := by
          cases rest with
          | nil => simp
          | cons d r' =>
            have hnd : ndR ' ' d := (List.chain'_cons.mp hch).1
            simp only [List.head?_cons, ne_eq, Option.some_inj]
            intro hd
            exact hnd ⟨rfl, hd⟩
        rw [(ih hcht).2 hh]
      · intro habs
        simp at habs
    · constructor
      · rw [subSpacesA, if_neg hc, (ih hcht).1]
      · intro _
        rw [subSpacesA, if_neg hc, (ih hcht).1]

theorem nd_lines : ∀ s : Str, List.Chain' ndR s → ∀ l ∈ splitNl s, List.Chain' ndR l := by
  intro s
  induction s using splitNl.induct with
  | case1 =>
    intro _ l hl
    simp [splitNl] at hl
    simp [hl]
  | case2 rest ih =>
    intro hch l hl
    rw [splitNl.eq_2] at hl
    rcases List.mem_cons.mp hl with h | h
    · simp [h]
    · exact ih hch.tail l h
  | case3 c rest hg ih =>
    intro hch l hl
    rw [splitNl_cons_ne c rest (fun h => hg h)] at hl
    cases hr : splitNl rest with
    | nil => exact absurd hr (splitNl_ne_nil rest)
    | cons h t =>
      rw [hr] at hl
      simp only [consHead] at hl
      rcases List.mem_cons.mp hl with h1 | h1
      · subst h1
        refine List.chain'_cons'.mpr ⟨?_, ?_⟩
        · intro y hy
          have hhead : (splitNl rest).head? = some (rest.takeWhile (fun x => x ≠ '\n')) :=
            splitNl_head rest
          rw [hr] at hhead
          simp only [List.head?_cons, Option.some_inj] at hhead
          rw [Option.mem_def] at hy
          rw [hhead] at hy
          have hresty : rest.head? = some y := by
            cases rest with
            | nil => simp at hy
            | cons d r' =>
              by_cases hd : d = '\n'
              · rw [List.takeWhile_cons_of_neg (by simp [hd])] at hy
                simp at hy
              · rw [List.takeWhile_cons_of_pos (by simp [hd])] at hy
                simp only [List.head?_cons, Option.some_inj] at hy
                simp [← hy]
          cases rest with
          | nil => simp at hresty
          | cons d r' =>
            simp only [List.head?_cons, Option.some_inj] at hresty
            subst hresty
            exact (List.chain'_cons.mp hch).1
        · exact ih hch.tail h (by rw [hr]; exact List.mem_cons_self h t)
      · exact ih hch.tail l (by rw [hr]; exact List.mem_cons_of_mem h h1)

theorem nd_nlJoin : ∀ L : List Str, (∀ l ∈ L, List.Chain' ndR l) →
    List.Chain' ndR (nlJoin L) := by
  intro L
  induction L with
  | nil =>
    intro _
    simp [nlJoin, joinSep]
  | cons l L' ih =>
    intro h
    cases L' with
    | nil => exact h l (by simp)
    | cons l2 t =>
      rw [nlJoin, joinSep_cons _ _ _ (by simp)]
      have e : l ++ ['\n'] ++ joinSep ['\n'] (l2 :: t) =
          l ++ '\n' :: joinSep ['\n'] (l2 :: t) := by simp
      rw [e]
      refine List.chain'_append.mpr ⟨h l (by simp), ?_, ?_⟩
      · refine List.chain'_cons'.mpr ⟨?_, ih (fun x hx => h x (by simp [hx]))⟩
        intro y hy hpair
        exact absurd hpair.1 (by decide)
      · intro x hx y hy
        rw [Option.mem_def] at hy
        simp only [List.head?_cons, Option.some_inj] at hy
        intro hpair
        rw [← hy] at hpair
        exact absurd hpair.2 (by decide)

theorem nd_dropWhile (p : Char → Bool) (s : Str) (h : List.Chain' ndR s) :
    List.Chain' ndR (s.dropWhile p) := by
  rcases List.dropWhile_suffix p (l := s) with ⟨pre, hpre⟩
  rw [← hpre] at h
  exact (List.chain'_append.mp h).2.1

theorem nd_rstrip (s : Str) (h : List.Chain' ndR s) : List.Chain' ndR (rstripWs s) := by
  rcases rstripWs_spec s with ⟨t, ht, _⟩
  rw [ht] at h
  exact (List.chain'_append.mp h).1

theorem nd_clean (content : Str) : List.Chain' ndR (_clean_content content) := by
  have h2 : List.Chain' ndR (subSpaces (subBlank content)) := (subSpacesA_chain _ false).1
  have hk : ∀ l ∈ (splitNl (subSpaces (subBlank content))).filter
      (fun line => decide (20 < (pyStrip line).length)), List.Chain' ndR l :=
    fun l hl => nd_lines _ h2 l (List.mem_of_mem_filter hl)
  have hj := nd_nlJoin _ hk
  exact nd_rstrip _ (nd_dropWhile isPySpace _ hj)

/-- C7: the cleaner is idempotent — applying `_clean_content` to its own
output returns that output unchanged. -/
theorem clean_idempotent (content : Str) :
    _clean_content (_clean_content content) = _clean_content content := by
  by_cases hne : _clean_content content = []
  · rw [hne]
    rfl
  · have hlines := clean_lines_long content hne
    have hnonws : ∀ l ∈ (splitNl (_clean_content content)).tail,
        ∃ c ∈ l, isPySpace c = false := by
      intro l hl
      have hlen := hlines l (List.mem_of_mem_tail hl)
      apply pyStrip_ne_nil_nonws
      intro h0
      rw [h0] at hlen
      simp at hlen
    have f2 : subBlank (_clean_content content) = _clean_content content :=
      subBlank_fix _ (lines_to_runsOK _ hnonws)
    have f3 : subSpaces (_clean_content content) = _clean_content content :=
      (subSpacesA_fix _ (nd_clean content)).1
    have f4 : (splitNl (_clean_content content)).filter
        (fun line => decide (20 < (pyStrip line).length)) =
          splitNl (_clean_content content) :=
      List.filter_eq_self.mpr (fun l hl => decide_eq_true (hlines l hl))
    have f5 : nlJoin (splitNl (_clean_content content)) = _clean_content content :=
      nlJoin_splitNl _
    have f1 : pyStrip (_clean_content content) = _clean_content content :=
      pyStrip_pyStrip _
    have hstep : _clean_content (_clean_content content) =
        pyStrip (nlJoin ((splitNl (subSpaces (subBlank (_clean_content content)))).filter
          (fun line => decide (20 < (pyStrip line).length)))) := rfl
    rw [hstep, f2, f3, f4, f5, f1]

/-! ## The validator (`RAGIndexBuilder.validate_index`) (C8) -/

/-- A document dict as the validator sees it: the `text` entry may be
missing, and the `metadata` entry may be missing; a present metadata block
is abstracted by the list of keys it contains. -/
structure PyDoc where
  text : Option Str
  metadata : Option (List Str)
deriving DecidableEq

/-- An index dict: `{"documents": [...]}`. -/
structure PyIndex where
  documents : List PyDoc
deriving DecidableEq

/-- One entry of the validator's `issues` list. -/
inductive DocIssue where
  | missingText (i : Nat)
  | shortText (i : Nat) (n : Nat)
  | missingMetadata (i : Nat)
  | missingField (i : Nat) (f : Str)
deriving DecidableEq

/-- `required_meta = ["author", "category", "url", "title"]`. -/
def required_meta : List Str :=
  [pyStr "author", pyStr "category", pyStr "url", pyStr "title"]

/-- Issues the validator collects for document number `i`. -/
def docIssues (i : Nat) (d : PyDoc) : List DocIssue :=
  (match d.text with
   | none => [DocIssue.missingText i]
   | some t => if wc t < 50 then [DocIssue.shortText i (wc t)] else []) ++
  (match d.metadata with
   | none => [DocIssue.missingMetadata i]
   | some m => (required_meta.filter (fun f => f ∉ m)).map (fun f => DocIssue.missingField i f))

/-- The `for i, doc in enumerate(index["documents"])` issue collection. -/
def collectIssuesFrom (i : Nat) : List PyDoc → List DocIssue
  | [] => []
  | d :: ds => docIssues i d ++ collectIssuesFrom (i + 1) ds

/-- `RAGIndexBuilder.validate_index`: invalid when `documents` is falsy,
otherwise valid exactly when no issues were collected. -/
def validate_index (idx : PyIndex) : Bool :=
  if idx.documents.isEmpty then false
  else (collectIssuesFrom 0 idx.documents).isEmpty

/-- A document with at least 50 words of text and a metadata block holding
all four required fields. -/
def GoodDoc (d : PyDoc) : Prop :=
  (∃ t, d.text = some t ∧ 50 ≤ wc t) ∧
    (∃ m, d.metadata = some m ∧ ∀ f ∈ required_meta, f ∈ m)

theorem docIssues_nil (i : Nat) (d : PyDoc) (h : GoodDoc d) : docIssues i d = [] := by
  obtain ⟨⟨t, ht, hwc⟩, ⟨m, hm, hf⟩⟩ := h
  rw [docIssues, ht, hm]
  simp only [Nat.not_lt.mpr hwc, if_neg, List.nil_append]
  simp [List.filter_eq_nil_iff, Nat.not_lt.mpr hwc]
  exact hf

theorem collectIssuesFrom_nil : ∀ (docs : List PyDoc) (i : Nat),
    (∀ d ∈ docs, GoodDoc d) → collectIssuesFrom i docs = [] := by
  intro docs
  induction docs with
  | nil => intro i _; rfl
  | cons d ds ih =>
    intro i h
    rw [collectIssuesFrom, docIssues_nil i d (h d (by simp)),
      ih (i + 1) (fun x hx => h x (by simp [hx]))]
    rfl

/-- C8: `validate_index` returns `false` for every index whose document list
is empty, and returns `true` for every nonempty index in which each document
has text of at least 50 whitespace-split words and a metadata block holding
`author`, `category`, `url` and `title`; being a total function it raises no
exception in either case. -/
theorem validate_index_empty_and_good (idx : PyIndex) :
    (idx.documents = [] → validate_index idx = false) ∧
      (idx.documents ≠ [] → (∀ d ∈ idx.documents, GoodDoc d) →
        validate_index idx = true) := by
  constructor
  · intro h
    rw [validate_index, if_pos (by simp [h])]
  · intro hne hgood
    rw [validate_index, if_neg (by simp [List.isEmpty_iff, hne]),
      collectIssuesFrom_nil idx.documents 0 hgood]
    rfl

/-- A concrete well-formed document: 50 words of text, full metadata. -/
def c8doc : PyDoc := ⟨some (spaceJoin (List.replicate 50 (pyStr "w"))), some required_meta⟩

set_option maxRecDepth 40000 in
theorem validate_index_empty_and_good_witness :
    validate_index ⟨[]⟩ = false ∧ validate_index ⟨[c8doc]⟩ = true :=
  ⟨(validate_index_empty_and_good ⟨[]⟩).1 rfl,
   (validate_index_empty_and_good ⟨[c8doc]⟩).2 (by simp)
     (by
       intro d hd
       simp only [List.mem_singleton] at hd
       subst hd
       exact ⟨⟨_, rfl, by decide⟩, ⟨_, rfl, by decide⟩⟩)⟩

/-! ## Key-term extraction (`ContentChunker._extract_key_terms`) (C9) -/

/-- A regex word character (`\w`, ASCII range): the alternatives in the
term patterns are made of these, and `\b` holds exactly at the transitions. -/
def isWordChar (c : Char) : Bool :=
  ('a' ≤ c && c ≤ 'z') || ('A' ≤ c && c ≤ 'Z') || ('0' ≤ c && c ≤ '9') || c = '_'

/-- Split at every non-word character, keeping empty pieces. -/
def splitWord : Str → List Str
  | [] => [[]]
  | c :: rest =>
    if isWordChar c then consHead c (splitWord rest) else [] :: splitWord rest

/-- The maximal word-character runs of a string: because every pattern
alternative is a word-character string wrapped in `\b ... \b`, a match of
`re.findall` is exactly one of these runs. -/
def wordRuns (s : Str) : List Str := (splitWord s).filter (fun w => !w.isEmpty)

/-- Python `str.lower()` on the ASCII text involved here. -/
def lowerStr (s : Str) : Str := s.map Char.toLower

/-- Whether one alternative of a pattern has a case-insensitive
word-boundary match in the content. -/
def termOccurs (t content : Str) : Bool :=
  (wordRuns content).any (fun w => decide (lowerStr w = lowerStr t))

/-- The five `tech_patterns` of `_extract_key_terms`, as their lists of
alternatives. -/
def tech_patterns : List (List Str) :=
  [[pyStr "Kubernetes", pyStr "K8s", pyStr "AKS", pyStr "Azure", pyStr "Istio", pyStr "Envoy"],
   [pyStr "container", pyStr "pod", pyStr "service", pyStr "deployment", pyStr "ingress"],
   [pyStr "AuthorizationPolicy", pyStr "JWT", pyStr "OIDC", pyStr "EntraID"],
   [pyStr "scaling", pyStr "autoscaling", pyStr "HPA", pyStr "KEDA"],
   [pyStr "monitoring", pyStr "logging", pyStr "observability"]]

/-- Set-like accumulation of `found_terms`: duplicates removed. -/
def dedupStr : List Str → List Str
  | [] => []
  | x :: rest => if x ∈ rest then dedupStr rest else x :: dedupStr rest

/-- The set `found_terms` after the pattern loop: each pattern's matches,
lower-cased, with duplicates removed. -/
def found_terms (content : Str) : List Str :=
  dedupStr (tech_patterns.flatMap
    (fun pat => (pat.filter (fun t => termOccurs t content)).map lowerStr))

/-- Python string comparison (ascending lexical order on code points). -/
def strLe : Str → Str → Bool
  | [], _ => true
  | _ :: _, [] => false
  | a :: as_, b :: bs => if a = b then strLe as_ bs else decide (a < b)

/-- Insertion step of `sorted(...)`. -/
def insertSorted (x : Str) : List Str → List Str
  | [] => [x]
  | y :: rest => if strLe x y then x :: y :: rest else y :: insertSorted x rest

/-- Python `sorted(...)` on the deduplicated term set. -/
def sortStrs : List Str → List Str
  | [] => []
  | x :: rest => insertSorted x (sortStrs rest)

/-- `ContentChunker._extract_key_terms`: `sorted(list(found_terms))`. -/
def _extract_key_terms (content : Str) : List Str := sortStrs (found_terms content)

/-- Position of a string in a list (first occurrence). -/
def idxOf (x : Str) : List Str → Nat
  | [] => 0
  | y :: rest => if x = y then 0 else idxOf x rest + 1

example : _extract_key_terms (pyStr "Deploy Kubernetes PODS on AKS with KEDA, really scaling.") =
    [pyStr "aks", pyStr "keda", pyStr "kubernetes", pyStr "scaling"] := by decide

theorem strLe_total : ∀ a b : Str, strLe a b = true ∨ strLe b a = true := by
  intro a
  induction a with
  | nil => intro b; left; rfl
  | cons x as_ ih =>
    intro b
    cases b with
    | nil => right; rfl
    | cons y bs =>
      by_cases hxy : x = y
      · subst hxy
        rcases ih bs with h | h
        · left
          rw [strLe, if_pos rfl]
          exact h
        · right
          rw [strLe, if_pos rfl]
          exact h
      · rcases lt_or_gt_of_ne hxy with h | h
        · left
          rw [strLe, if_neg hxy]
          simpa using h
        · right
          rw [strLe, if_neg (fun hh => hxy hh.symm)]
          simpa using h

theorem strLe_trans : ∀ a b c : Str, strLe a b = true → strLe b c = true →
    strLe a c = true := by
  intro a
  induction a with
  | nil => intro b c _ _; rfl
  | cons x as_ ih =>
    intro b c h1 h2
    cases b with
    | nil => simp [strLe] at h1
    | cons y bs =>
      cases c with
      | nil => simp [strLe] at h2
      | cons z cs =>
        by_cases hxy : x = y <;> by_cases hyz : y = z
        · subst hxy; subst hyz
          rw [strLe, if_pos rfl] at h1 h2 ⊢
          exact ih bs cs h1 h2
        · subst hxy
          rw [strLe, if_neg hyz] at h2
          rw [strLe, if_neg hyz]
          exact h2
        · subst hyz
          rw [strLe, if_neg hxy] at h1
          rw [strLe, if_neg hxy]
          exact h1
        · rw [strLe, if_neg hxy] at h1
          rw [strLe, if_neg hyz] at h2
          have hlt : x < z := lt_trans (of_decide_eq_true h1) (of_decide_eq_true h2)
          rw [strLe, if_neg (ne_of_lt hlt)]
          simpa using hlt

theorem strLe_antisymm : ∀ a b : Str, strLe a b = true → strLe b a = true → a = b := by
  intro a
  induction a with
  | nil =>
    intro b h1 h2
    cases b with
    | nil => rfl
    | cons y bs => simp [strLe] at h2
  | cons x as_ ih =>
    intro b h1 h2
    cases b with
    | nil => simp [strLe] at h1
    | cons y bs =>
      by_cases hxy : x = y
      · subst hxy
        rw [strLe, if_pos rfl] at h1 h2
        rw [ih bs h1 h2]
      · rw [strLe, if_neg hxy] at h1
        rw [strLe, if_neg (fun hh => hxy hh.symm)] at h2
        exact absurd (of_decide_eq_true h2) (lt_asymm (of_decide_eq_true h1))

theorem mem_insertSorted : ∀ (l : List Str) (x a : Str),
    a ∈ insertSorted x l ↔ a = x ∨ a ∈ l := by
  intro l
  induction l with
  | nil => intro x a; simp [insertSorted]
  | cons y rest ih =>
    intro x a
    rw [insertSorted]
    by_cases h : strLe x y = true
    · rw [if_pos h]
      simp
    · rw [if_neg h]
      simp [ih]
      tauto

theorem insertSorted_pairwise : ∀ (l : List Str) (x : Str),
    l.Pairwise (fun a b => strLe a b = true) →
      (insertSorted x l).Pairwise (fun a b => strLe a b = true) := by
  intro l
  induction l with
  | nil => intro x _; simp [insertSorted]
  | cons y rest ih =>
    intro x h
    rw [insertSorted]
    by_cases hle : strLe x y = true
    · rw [if_pos hle]
      refine List.pairwise_cons.mpr ⟨?_, h⟩
      intro b hb
      rcases List.mem_cons.mp hb with h1 | h1
      · subst h1
        exact hle
      · exact strLe_trans x y b hle ((List.pairwise_cons.mp h).1 b h1)
    · rw [if_neg hle]
      have hyx : strLe y x = true := (strLe_total x y).resolve_left hle
      refine List.pairwise_cons.mpr ⟨?_, ih x (List.pairwise_cons.mp h).2⟩
      intro b hb
      rcases (mem_insertSorted rest x b).mp hb with h1 | h1
      · subst h1
        exact hyx
      · exact (List.pairwise_cons.mp h).1 b h1

theorem insertSorted_perm : ∀ (l : List Str) (x : Str),
    (insertSorted x l).Perm (x :: l) := by
  intro l
  induction l with
  | nil => intro x; exact List.Perm.refl _
  | cons y rest ih =>
    intro x
    rw [insertSorted]
    by_cases hle : strLe x y = true
    · rw [if_pos hle]
    · rw [if_neg hle]
      exact ((ih x).cons y).trans (List.Perm.swap x y rest)

theorem sortStrs_pairwise : ∀ L : List Str,
    (sortStrs L).Pairwise (fun a b => strLe a b = true) := by
  intro L
  induction L with
  | nil => simp [sortStrs]
  | cons x rest ih =>
    rw [sortStrs]
    exact insertSorted_pairwise _ x ih

theorem sortStrs_perm : ∀ L : List Str, (sortStrs L).Perm L := by
  intro L
  induction L with
  | nil => exact List.Perm.refl _
  | cons x rest ih =>
    rw [sortStrs]
    exact (insertSorted_perm (sortStrs rest) x).trans (ih.cons x)

theorem mem_dedupStr : ∀ (l : List Str) (a : Str), a ∈ dedupStr l ↔ a ∈ l := by
  intro l
  induction l with
  | nil => intro a; simp [dedupStr]
  | cons x rest ih =>
    intro a
    rw [dedupStr]
    by_cases h : x ∈ rest
    · rw [if_pos h]
      constructor
      · intro ha
        exact List.mem_cons_of_mem x ((ih a).mp ha)
      · intro ha
        rcases List.mem_cons.mp ha with h1 | h1
        · subst h1
          exact (ih a).mpr h
        · exact (ih a).mpr h1
    · rw [if_neg h]
      simp [ih]

theorem nodup_dedupStr : ∀ l : List Str, (dedupStr l).Nodup := by
  intro l
  induction l with
  | nil => simp [dedupStr]
  | cons x rest ih =>
    rw [dedupStr]
    by_cases h : x ∈ rest
    · rw [if_pos h]
      exact ih
    · rw [if_neg h]
      exact List.nodup_cons.mpr ⟨fun hm => h ((mem_dedupStr rest x).mp hm), ih⟩

theorem sorted_idxOf_lt : ∀ l : List Str,
    l.Pairwise (fun a b => strLe a b = true) → ∀ a b, a ∈ l → b ∈ l →
      strLe a b = true → a ≠ b → idxOf a l < idxOf b l := by
  intro l
  induction l with
  | nil => intro _ a b ha; simp at ha
  | cons h t ih =>
    intro hp a b ha hb hle hne
    by_cases hah : a = h
    · subst hah
      rw [idxOf, if_pos rfl, idxOf, if_neg (fun he => hne he.symm)]
      omega
    · have hat : a ∈ t := by
        rcases List.mem_cons.mp ha with h1 | h1
        · exact absurd h1 hah
        · exact h1
      by_cases hbh : b = h
      · subst hbh
        have hba : strLe b a = true := (List.pairwise_cons.mp hp).1 a hat
        exact absurd (strLe_antisymm a b hle hba) hne
      · have hbt : b ∈ t := by
          rcases List.mem_cons.mp hb with h1 | h1
          · exact absurd h1 hbh
          · exact h1
        rw [idxOf, if_neg hah, idxOf, if_neg hbh]
        have := ih (List.pairwise_cons.mp hp).2 a b hat hbt hle hne
        omega

theorem mem_extract (content t : Str) :
    t ∈ _extract_key_terms content ↔
      ∃ pat ∈ tech_patterns, ∃ term ∈ pat,
        termOccurs term content = true ∧ t = lowerStr term := by
  rw [_extract_key_terms, (sortStrs_perm _).mem_iff, found_terms, mem_dedupStr]
  simp only [List.mem_flatMap, List.mem_map, List.mem_filter]
  constructor
  · rintro ⟨pat, hp, term, ⟨hm, ho⟩, ht⟩
    exact ⟨pat, hp, term, hm, ho, ht.symm⟩
  · rintro ⟨pat, hp, term, hm, ho, ht⟩
    exact ⟨pat, hp, term, ⟨hm, ho⟩, ht.symm⟩

/-- C9: the key-term list is strictly ascending in lexical order (hence
duplicate-free), its members are exactly the lower-casings of the pattern
alternatives that occur as case-insensitive whole words in the content, and
content containing the words `Kubernetes` and `AKS` yields a list with
`aks` before `kubernetes`. -/
theorem extract_key_terms_sorted (content : Str) :
    (_extract_key_terms content).Pairwise (fun a b => strLe a b = true ∧ a ≠ b) ∧
      (∀ t, t ∈ _extract_key_terms content ↔
        ∃ pat ∈ tech_patterns, ∃ term ∈ pat,
          termOccurs term content = true ∧ t = lowerStr term) ∧
      (pyStr "Kubernetes" ∈ wordRuns content → pyStr "AKS" ∈ wordRuns content →
        pyStr "aks" ∈ _extract_key_terms content ∧
          pyStr "kubernetes" ∈ _extract_key_terms content ∧
          idxOf (pyStr "aks") (_extract_key_terms content) <
            idxOf (pyStr "kubernetes") (_extract_key_terms content)) := by
  have hsorted : (_extract_key_terms content).Pairwise (fun a b => strLe a b = true) :=
    sortStrs_pairwise (found_terms content)
  have hnd : (_extract_key_terms content).Nodup :=
    ((sortStrs_perm (found_terms content)).nodup_iff).mpr (nodup_dedupStr _)
  refine ⟨hsorted.and hnd, fun t => mem_extract content t, ?_⟩
  intro hK hA
  have hoK : termOccurs (pyStr "Kubernetes") content = true := by
    rw [termOccurs, List.any_eq_true]
    exact ⟨pyStr "Kubernetes", hK, by decide⟩
  have hoA : termOccurs (pyStr "AKS") content = true := by
    rw [termOccurs, List.any_eq_true]
    exact ⟨pyStr "AKS", hA, by decide⟩
  have hmA : pyStr "aks" ∈ _extract_key_terms content :=
    (mem_extract content _).mpr
      ⟨[pyStr "Kubernetes", pyStr "K8s", pyStr "AKS", pyStr "Azure", pyStr "Istio",
          pyStr "Envoy"],
        by simp [tech_patterns], pyStr "AKS", by simp, hoA, by decide⟩
  have hmK : pyStr "kubernetes" ∈ _extract_key_terms content :=
    (mem_extract content _).mpr
      ⟨[pyStr "Kubernetes", pyStr "K8s", pyStr "AKS", pyStr "Azure", pyStr "Istio",
          pyStr "Envoy"],
        by simp [tech_patterns], pyStr "Kubernetes", by simp, hoK, by decide⟩
  exact ⟨hmA, hmK, sorted_idxOf_lt _ hsorted _ _ hmA hmK (by decide) (by decide)⟩

/-- Concrete content containing the words `Kubernetes` and `AKS`. -/
def c9content : Str := pyStr "Deploy Kubernetes on AKS today"

theorem extract_key_terms_sorted_witness :
    pyStr "aks" ∈ _extract_key_terms c9content ∧
      pyStr "kubernetes" ∈ _extract_key_terms c9content ∧
      idxOf (pyStr "aks") (_extract_key_terms c9content) <
        idxOf (pyStr "kubernetes") (_extract_key_terms c9content) :=
  (extract_key_terms_sorted c9content).2.2 (by decide) (by decide)
